import Mathlib

/-!
Verification of the `venvr` environment-construction core
(`src/venvr/__init__.py`) against its natural-language specification.

The Python source is shallowly embedded: text is `List Char`, files are
explicit values threaded through the functions, fallible steps return
`Option`/`Except`, and the external collaborators the spec excludes
(Python's own `venv.EnvBuilder` lifecycle and the subprocess calls of
`get_r_info`) appear as explicit parameters or as data already produced.
-/

namespace Venvr

/-- Errors raised by the builder; the Python source raises `ValueError`
with distinct messages, which the spec names as this taxonomy. -/
inductive BuildError where
  | discoveryError
  | layoutConflict
  | notAnEnvironment
  | argumentConflict
deriving DecidableEq, Repr

/-- The slots of venv's `context` object that the R-specific code reads or
writes: `context.r_home`, `context.r_exec`, `context.rscript_exec`,
`context.r_version` (set in `create_configuration` from `get_r_info`),
plus `context.python_exe` and `context.lib_name` used by
`replace_variables`. -/
structure RContext where
  r_home : List Char
  r_exec : List Char
  rscript_exec : List Char
  r_version : List (List Char)
  python_exe : List Char
  lib_name : List Char
deriving DecidableEq, Repr

/-- Python's `".".join(parts)`. -/
def joinDot : List (List Char) → List Char
  | [] => []
  | [p] => p
  | p :: ps => p ++ '.' :: joinDot ps

/-- Accumulator loop of `splitDot`; `cur` holds the current field reversed. -/
def splitDotGo (cur : List Char) : List Char → List (List Char)
  | [] => [cur.reverse]
  | c :: cs => if c = '.' then cur.reverse :: splitDotGo [] cs else splitDotGo (c :: cur) cs

/-- Python's `s.split(".")`. -/
def splitDot (s : List Char) : List (List Char) := splitDotGo [] s

/-- The boolean rendering chosen in `create_configuration`:
`incl = "true" if self.r_system_site_packages else "false"`. -/
def incl_line_value (r_ssp : Bool) : List Char :=
  if r_ssp then "true".toList else "false".toList

/-- The bytes produced by the three `f.write` calls of
`VenvrBuilder.create_configuration` (lines 72-79 of the source):
`"\nR-home = %s\n"`, `"R-include-system-packages = %s\n"`,
`"R-version = %s\n"` with `"." .join(context.r_version)`. -/
def config_append_text (r_ssp : Bool) (ctx : RContext) : List Char :=
  '\n' :: ("R-home = ".toList ++ ctx.r_home ++ ['\n'])
  ++ ("R-include-system-packages = ".toList ++ incl_line_value r_ssp ++ ['\n'])
  ++ ("R-version = ".toList ++ joinDot ctx.r_version ++ ['\n'])

/-- The configuration file after `create_configuration`'s append step: the
file is opened with mode `"a"`, so the previous contents `pre` stay in
place and the three writes land after them. -/
def create_configuration_append (pre : List Char) (r_ssp : Bool) (ctx : RContext) : List Char :=
  pre ++ config_append_text r_ssp ctx

/-- Accumulator loop of `linesOf`; `cur` holds the current line reversed.
A trailing fragment without a final newline still counts as a line, and a
newline-terminated text contributes no empty final line (the counting of
Python's `str.splitlines`). -/
def splitLinesGo (cur : List Char) : List Char → List (List Char)
  | [] => if cur = [] then [] else [cur.reverse]
  | c :: cs => if c = '\n' then cur.reverse :: splitLinesGo [] cs else splitLinesGo (c :: cur) cs

/-- The lines of a text, in the sense of Python's `str.splitlines`
restricted to `'\n'` terminators. -/
def linesOf (s : List Char) : List (List Char) := splitLinesGo [] s

/-- Greedy run of `\d+` after its first character: consume digits until a
non-digit appears. -/
def chompDigits : List Char → List Char
  | [] => []
  | c :: cs => if c.isDigit then chompDigits cs else c :: cs

/-- Consume `\d+` (at least one digit, then greedily); `none` when the
text does not start with a digit. -/
def digits1 : List Char → Option (List Char)
  | [] => none
  | c :: cs => if c.isDigit then some (chompDigits cs) else none

/-- Python's `re.match(r"\d+\.\d+\..+", rv) is not None`: an anchored
prefix match of two dot-separated digit runs followed by a dot and at
least one character other than a newline (`.` does not match `'\n'`;
`re.match` does not require the match to span the whole string). -/
def matchesVersion (s : List Char) : Bool :=
  match digits1 s with
  | none => false
  | some r1 =>
    match r1 with
    | '.' :: r2 =>
      match digits1 r2 with
      | none => false
      | some r3 =>
        match r3 with
        | '.' :: r4 =>
          match r4 with
          | [] => false
          | c :: _ => decide (c ≠ '\n')
        | _ => false
    | _ => false

/-- Version handling of `get_r_info` (lines 158-168 of the source): the
reported string is validated against the dotted pattern (a `ValueError`
otherwise, modelled as `none`) and stored as `rv.split(".")`. -/
def get_r_info_version (rv : List Char) : Option (List (List Char)) :=
  if matchesVersion rv then some (splitDot rv) else none

/-- The loop of `main` (lines 325-326 of the source):
`for d in options.dirs: builder.create(d)`. One `builder.create` call is
abstracted by its outcome function `create`; the loop body has no
exception handler, so a raised error propagates and ends the loop. The
result records the directories on which `create` was actually invoked and
the error that escaped, if any. -/
def builder_runs (create : List Char → Option BuildError) :
    List (List Char) → List (List Char) × Option BuildError
  | [] => ([], none)
  | d :: ds =>
    match create d with
    | some e => ([d], some e)
    | none =>
      let r := builder_runs create ds
      (d :: r.1, r.2)

/-- The `__main__` block (lines 329-336): `rc = 1`, set to `0` only when
`main()` returns without raising, so the exit status is `0` exactly when
the loop finished with no error. -/
def main_exit (create : List Char → Option BuildError) (dirs : List (List Char)) : Nat :=
  match (builder_runs create dirs).2 with
  | none => 0
  | some _ => 1

/-- A build-outcome function that fails on directory `a` and succeeds
elsewhere, used to exercise the multi-directory loop. -/
def failingCreate : List Char → Option BuildError :=
  fun d => if d = "a".toList then some BuildError.discoveryError else none

/-- The parsed CLI options `main` inspects before building: the target
directories and the `--convert-to-venvr`, `--clear` and `--upgrade`
toggles (`options.convert`, `options.clear`, `options.upgrade`). -/
structure CliOptions where
  dirs : List (List Char)
  convert : Bool
  clear : Bool
  upgrade : Bool
deriving DecidableEq, Repr

/-- The two mutual-exclusion checks of `main` (lines 309-313), performed
directly after argument parsing: `convert and clear` and
`upgrade and clear` each raise a `ValueError` (`ArgumentConflictError` in
the spec's taxonomy). -/
def main_check_options (o : CliOptions) : Option BuildError :=
  if o.convert && o.clear then some BuildError.argumentConflict
  else if o.upgrade && o.clear then some BuildError.argumentConflict
  else none

/-- The body of `main` after argument parsing: the exclusion checks run
first and a conflict raises before the builder is constructed and before
the directory loop starts, so no target directory is attempted (the
attempted-directory list of the result is empty). -/
def main_run (create : List Char → Option BuildError) (o : CliOptions) :
    List (List Char) × Option BuildError :=
  match main_check_options o with
  | some e => ([], some e)
  | none => builder_runs create o.dirs

/-- Filesystem abstraction for the convert path: the set of paths that
exist on disk. -/
structure ConvertFS where
  paths : List (List Char)
deriving DecidableEq, Repr

/-- Python's `os.path.exists`. -/
def fs_exists (fs : ConvertFS) (p : List Char) : Bool := fs.paths.contains p

/-- The convert branch of `VenvrBuilder.create` (lines 39-49 of the
source): compute `cfg_path = os.path.join(env_dir, "pyvenv.cfg")`, raise
`ValueError` (`NotAnEnvironmentError`) when it does not exist, and only
otherwise run the remaining steps (`ensure_directories`, the `cfg_path`
assignment, `create_configuration(convert=True)` and `post_setup`),
abstracted here as `rest` since they follow the existence check in the
source. The pair returned is (raised error if any, resulting filesystem);
the error branch returns the filesystem it was given. -/
def create_convert (rest : List Char → ConvertFS → Option BuildError × ConvertFS)
    (env_dir : List Char) (fs : ConvertFS) : Option BuildError × ConvertFS :=
  let cfg_path := env_dir ++ "/pyvenv.cfg".toList
  if fs_exists fs cfg_path = false then (some BuildError.notAnEnvironment, fs)
  else rest cfg_path fs

/-- What the version-qualified library path can be on disk. A symbolic
link is tracked with the kind of its (existing) target, matching how
`os.path.exists` and `os.path.isfile` follow links while `os.path.islink`
does not. -/
inductive FsEntry where
  | absent
  | dir
  | file
  | symlinkToDir
  | symlinkToFile
deriving DecidableEq, Repr

/-- Python's `os.path.exists` on the entry. -/
def entry_exists : FsEntry → Bool
  | .absent => false
  | _ => true

/-- Python's `os.path.islink` on the entry. -/
def entry_islink : FsEntry → Bool
  | .symlinkToDir => true
  | .symlinkToFile => true
  | _ => false

/-- Python's `os.path.isfile` on the entry (follows symbolic links). -/
def entry_isfile : FsEntry → Bool
  | .file => true
  | .symlinkToFile => true
  | _ => false

/-- The version-qualified library directory name of `post_setup` (line
91): `"R" + ".".join(context.r_version[:2])`. -/
def r_libdir_name (r_version : List (List Char)) : List Char :=
  'R' :: joinDot (r_version.take 2)

/-- The library-directory step of `post_setup` (lines 90-96): if the path
does not exist, `os.makedirs` creates it together with missing parents;
otherwise, if it is a symbolic link or a regular file, raise `ValueError`
(`LayoutConflictError`); otherwise (a plain directory) do nothing. The
result is the entry at the path afterwards. -/
def ensure_r_libdir (e : FsEntry) : Except BuildError FsEntry :=
  if entry_exists e = false then Except.ok FsEntry.dir
  else if entry_islink e || entry_isfile e then Except.error BuildError.layoutConflict
  else Except.ok e

/-- Word characters of the regex `\b` boundary (ASCII fragment of
Python's `\w`): letters, digits and the underscore. Activation scripts
are ASCII text, so the ASCII fragment is faithful here. -/
def isWordChar (c : Char) : Bool := c.isAlphanum || c == '_'

/-- The identifier the pattern `\bdeactivate\b` matches. -/
def deactivateWord : List Char := "deactivate".toList

/-- The replacement text `deactivate_py`. -/
def deactivatePy : List Char := "deactivate_py".toList

/-- The `\b` assertion after the matched identifier: end of text, or a
character that is not a word character. -/
def wordBoundaryAfter : List Char → Bool
  | [] => true
  | c :: _ => !isWordChar c

/-- The left-to-right scan of `re.sub(r"\bdeactivate\b", "deactivate_py",
py_script)` (line 115 of the source). `pw` records whether the character
just before the current position is a word character (the information the
leading `\b` consults; at the start of the text it is `false`). On a
match the scan emits the replacement and resumes after the matched text,
whose last character `e` is a word character. -/
def sub_deactivate_go : Bool → List Char → List Char
  | _, [] => []
  | pw, c :: cs =>
    if pw = false ∧ deactivateWord <+: (c :: cs) ∧ wordBoundaryAfter (cs.drop 9) = true then
      deactivatePy ++ sub_deactivate_go true (cs.drop 9)
    else
      c :: sub_deactivate_go (isWordChar c) cs
termination_by _ l => l.length
decreasing_by
  · simp [List.length_drop]
    omega
  · simp

/-- The whole-word rename applied to the pre-existing activation script:
`re.sub(r"\bdeactivate\b", "deactivate_py", py_script)`. -/
def sub_deactivate (s : List Char) : List Char := sub_deactivate_go false s

/-- Tokenization of a text into maximal word-character runs and single
non-word characters: the reading of the spec under which a whole-word
occurrence of the identifier is a maximal word run equal to it. -/
def wordTokens : List Char → List (List Char)
  | [] => []
  | c :: cs =>
    if isWordChar c then
      (c :: cs.takeWhile isWordChar) :: wordTokens (cs.dropWhile isWordChar)
    else
      [c] :: wordTokens cs
termination_by l => l.length
decreasing_by
  · have h := (List.dropWhile_suffix (l := cs) isWordChar).length_le
    simp
    omega
  · simp

/-- Rename a token exactly when it is the identifier itself. -/
def renameToken (t : List Char) : List Char := if t = deactivateWord then deactivatePy else t

/-- Specification-side rename: every maximal word run equal to the
identifier is renamed and every other token is kept verbatim. -/
def wholeWordRename (s : List Char) : List Char := ((wordTokens s).map renameToken).flatten

/-- The activation-script write-back of `post_setup` (lines 113-118 of
the source): the file is opened `"r+"`, its old contents are read, the
renamed text plus the resolved template is written back from `seek(0)`
without truncation, so bytes of the old contents beyond the written
length would survive. -/
def activate_rewrite (old r_script : List Char) : List Char :=
  let py_script := sub_deactivate old
  let script := py_script ++ r_script
  script ++ old.drop script.length

/-- Python's `text.replace(pat, val)` for a nonempty `pat`: scan left to
right, replace each leftmost occurrence and resume after it; replaced
output is not rescanned. -/
def pyReplace (pat val : List Char) : List Char → List Char
  | [] => []
  | c :: cs =>
    if pat <+: (c :: cs) then val ++ pyReplace pat val (cs.drop (pat.length - 1))
    else c :: pyReplace pat val cs
termination_by l => l.length
decreasing_by
  · simp [List.length_drop]
    omega
  · simp

/-- The placeholder token of the system-package inclusion flag. -/
def tok_system_packages : List Char := "__VENVR_SYSTEM_PACKAGES__".toList

/-- The placeholder token of the R install root. -/
def tok_r_home : List Char := "__VENVR_R_HOME__".toList

/-- The placeholder token of the Python executable path. -/
def tok_py_exec : List Char := "__VENVR_PY_EXEC__".toList

/-- The placeholder token of the library directory name. -/
def tok_lib_name : List Char := "__VENVR_LIB_NAME__".toList

/-- The guard substring of `replace_variables`: `"__VENVR_" in text`. -/
def venvrMarker : List Char := "__VENVR_".toList

/-- The enumerated, fixed set of recognized placeholder tokens. -/
def venvrTokens : List (List Char) :=
  [tok_system_packages, tok_r_home, tok_py_exec, tok_lib_name]

/-- The venvr-specific part of `VenvrBuilder.replace_variables` (lines
132-138 of the source), applied to the text already processed by the host
builder's own resolver (`super().replace_variables`, an external
collaborator outside this core): when the marker `__VENVR_` occurs, the
four enumerated tokens are replaced in program order by `str.replace`. -/
def replace_variables (r_ssp : Bool) (ctx : RContext) (text : List Char) : List Char :=
  if venvrMarker <:+: text then
    pyReplace tok_lib_name ctx.lib_name
      (pyReplace tok_py_exec ctx.python_exe
        (pyReplace tok_r_home ctx.r_home
          (pyReplace tok_system_packages (incl_line_value r_ssp) text)))
  else text

/-- Join a list of segments with a separator between consecutive ones;
`pyReplace`'s output has this shape with the replacement value as the
separator. -/
def joinWith (sep : List Char) : List (List Char) → List Char
  | [] => []
  | [p] => p
  | p :: ps => p ++ sep ++ joinWith sep ps

/-- Sanity conditions on a resolved substitution value under which
sequential `str.replace` passes neither miss nor manufacture token
occurrences: the value has no underscore (each token begins and ends with
one) and is not a fragment of any token. Realistic values — `true`,
`false`, `lib`, `Lib` and ordinary installation paths — satisfy them. -/
def goodValue (v : List Char) : Prop :=
  '_' ∉ v ∧ ∀ t ∈ venvrTokens, ¬ v <:+: t

instance (v : List Char) : Decidable (goodValue v) := by
  unfold goodValue
  infer_instance

/-!  Theorems: helper lemmas first, then one theorem per claim. -/

theorem splitLinesGo_cons (cur : List Char) (c : Char) (cs : List Char) :
    splitLinesGo cur (c :: cs) =
      if c = '\n' then cur.reverse :: splitLinesGo [] cs else splitLinesGo (c :: cur) cs := rfl

theorem splitLinesGo_append_of_terminated (a : List Char) :
    ∀ (cur b : List Char), a.getLast? = some '\n' →
      splitLinesGo cur (a ++ b) = splitLinesGo cur a ++ splitLinesGo [] b := by
  induction a with
  | nil => intro cur b h; simp at h
  | cons c cs ih =>
    intro cur b h
    cases cs with
    | nil =>
      simp only [List.getLast?_singleton, Option.some.injEq] at h
      subst h
      simp [splitLinesGo_cons, splitLinesGo]
    | cons d ds =>
      rw [List.getLast?_cons_cons] at h
      rw [List.cons_append, splitLinesGo_cons, splitLinesGo_cons]
      by_cases hc : c = '\n'
      · rw [if_pos hc, if_pos hc, ih [] b h, List.cons_append]
      · rw [if_neg hc, if_neg hc, ih (c :: cur) b h]

/-- Splitting into lines distributes over append when the first part is
newline-terminated. -/
theorem linesOf_append (a b : List Char) (h : a.getLast? = some '\n') :
    linesOf (a ++ b) = linesOf a ++ linesOf b :=
  splitLinesGo_append_of_terminated a [] b h

theorem splitLinesGo_no_newline (w : List Char) :
    ∀ (cur r : List Char), (∀ c ∈ w, c ≠ '\n') →
      splitLinesGo cur (w ++ '\n' :: r) = (cur.reverse ++ w) :: splitLinesGo [] r := by
  induction w with
  | nil => intro cur r _; simp [splitLinesGo_cons, splitLinesGo]
  | cons c cs ih =>
    intro cur r h
    have hc : c ≠ '\n' := h c (by simp)
    rw [List.cons_append, splitLinesGo_cons, if_neg hc]
    rw [ih (c :: cur) r (fun x hx => h x (by simp [hx]))]
    simp

/-- One newline-terminated line whose body has no interior newline splits
as exactly that one line. -/
theorem linesOf_single_line (w r : List Char) (h : ∀ c ∈ w, c ≠ '\n') :
    linesOf (w ++ '\n' :: r) = w :: linesOf r := by
  unfold linesOf
  rw [splitLinesGo_no_newline w [] r h]
  simp

theorem splitDotGo_ne_nil (s : List Char) : ∀ cur, splitDotGo cur s ≠ [] := by
  induction s with
  | nil => intro cur; simp [splitDotGo]
  | cons c cs ih =>
    intro cur
    by_cases hc : c = '.'
    · simp [splitDotGo, hc]
    · simp only [splitDotGo, if_neg hc]
      exact ih (c :: cur)

theorem joinDot_splitDotGo (s : List Char) :
    ∀ cur, joinDot (splitDotGo cur s) = cur.reverse ++ s := by
  induction s with
  | nil => intro cur; simp [splitDotGo, joinDot]
  | cons c cs ih =>
    intro cur
    by_cases hc : c = '.'
    · subst hc
      simp only [splitDotGo, if_pos rfl]
      obtain ⟨q, qs, hq⟩ : ∃ q qs, splitDotGo ([] : List Char) cs = q :: qs := by
        cases h : splitDotGo ([] : List Char) cs with
        | nil => exact absurd h (splitDotGo_ne_nil cs [])
        | cons q qs => exact ⟨q, qs, rfl⟩
      rw [hq]
      show joinDot (cur.reverse :: q :: qs) = cur.reverse ++ '.' :: cs
      have h2 : joinDot (q :: qs) = cs := by
        have := ih ([] : List Char)
        rw [hq] at this
        simpa using this
      simp [joinDot, h2]
    · simp only [splitDotGo, if_neg hc]
      rw [ih (c :: cur)]
      simp

/-- Splitting on dots and rejoining with dots is the identity, the
round-trip between `get_r_info`'s `rv.split(".")` and
`create_configuration`'s `".".join(context.r_version)`. -/
theorem joinDot_splitDot (s : List Char) : joinDot (splitDot s) = s := by
  have := joinDot_splitDotGo s []
  simpa [splitDot] using this

/-- The lines of the appended configuration text: an empty line written by
the leading `'\n'` of the first format string, followed by the three
content lines in fixed order. -/
theorem linesOf_config_append_text (r_ssp : Bool) (ctx : RContext)
    (h1 : '\n' ∉ ctx.r_home) (h2 : '\n' ∉ joinDot ctx.r_version) :
    linesOf (config_append_text r_ssp ctx) =
      [[], "R-home = ".toList ++ ctx.r_home,
        "R-include-system-packages = ".toList ++ incl_line_value r_ssp,
        "R-version = ".toList ++ joinDot ctx.r_version] := by
  have hA : ∀ c ∈ "R-home = ".toList ++ ctx.r_home, c ≠ '\n' := by
    intro c hc he
    subst he
    rcases List.mem_append.mp hc with h | h
    · exact absurd h (by decide)
    · exact h1 h
  have hB : ∀ c ∈ "R-include-system-packages = ".toList ++ incl_line_value r_ssp, c ≠ '\n' := by
    intro c hc he
    subst he
    rcases List.mem_append.mp hc with h | h
    · exact absurd h (by decide)
    · cases r_ssp <;> exact absurd h (by decide)
  have hC : ∀ c ∈ "R-version = ".toList ++ joinDot ctx.r_version, c ≠ '\n' := by
    intro c hc he
    subst he
    rcases List.mem_append.mp hc with h | h
    · exact absurd h (by decide)
    · exact h2 h
  have hshape : config_append_text r_ssp ctx =
      '\n' :: (("R-home = ".toList ++ ctx.r_home) ++ '\n' ::
        (("R-include-system-packages = ".toList ++ incl_line_value r_ssp) ++ '\n' ::
          (("R-version = ".toList ++ joinDot ctx.r_version) ++ '\n' :: []))) := by
    simp [config_append_text]
  rw [hshape]
  have hstep : ∀ t : List Char, linesOf ('\n' :: t) = [] :: linesOf t := by
    intro t
    simp [linesOf, splitLinesGo_cons]
  rw [hstep, linesOf_single_line _ _ hA, linesOf_single_line _ _ hB,
    linesOf_single_line _ _ hC]
  rfl

/-- C1 counterexample: against a newline-terminated configuration file of
one pre-existing line, the append step of `create_configuration` yields a
file of five lines, not the claimed N + 3 = 4 — the leading `'\n'` of the
first write inserts a blank separator line. -/
theorem claim1_counterexample :
    (linesOf "a\n".toList).length = 1 ∧
    (linesOf (create_configuration_append "a\n".toList false
      ⟨"/usr/lib/R".toList, "/usr/lib/R/bin/R".toList, "/usr/lib/R/bin/Rscript".toList,
        [['4'], ['3'], ['1']], "/e/bin/python".toList, "lib".toList⟩)).length ≠
      (linesOf "a\n".toList).length + 3 := by
  constructor
  · rfl
  · decide

/-- C1 amended: the append step of `create_configuration` appends a blank
separator line followed by exactly the three content lines in fixed order
(install root, lowercase boolean inclusion flag, dotted version), so a
newline-terminated file of N pre-existing lines has exactly N + 4 lines
afterwards and the first N lines are unchanged. -/
theorem claim1_amended (pre : List Char) (r_ssp : Bool) (ctx : RContext)
    (hpre : pre.getLast? = some '\n') (h1 : '\n' ∉ ctx.r_home)
    (h2 : '\n' ∉ joinDot ctx.r_version) :
    linesOf (create_configuration_append pre r_ssp ctx) =
      linesOf pre ++ [[], "R-home = ".toList ++ ctx.r_home,
        "R-include-system-packages = ".toList ++ incl_line_value r_ssp,
        "R-version = ".toList ++ joinDot ctx.r_version] ∧
    (linesOf (create_configuration_append pre r_ssp ctx)).length = (linesOf pre).length + 4 ∧
    (linesOf (create_configuration_append pre r_ssp ctx)).take (linesOf pre).length =
      linesOf pre := by
  have key : linesOf (create_configuration_append pre r_ssp ctx) =
      linesOf pre ++ [[], "R-home = ".toList ++ ctx.r_home,
        "R-include-system-packages = ".toList ++ incl_line_value r_ssp,
        "R-version = ".toList ++ joinDot ctx.r_version] := by
    unfold create_configuration_append
    rw [linesOf_append _ _ hpre, linesOf_config_append_text r_ssp ctx h1 h2]
  refine ⟨key, ?_, ?_⟩
  · rw [key]; simp
  · rw [key]; exact List.take_left _ _

/-- C1 witness: the amended statement evaluated at a concrete
one-line file and concrete descriptor. -/
theorem claim1_witness :
    (linesOf (create_configuration_append "a\n".toList false
      ⟨"/usr/lib/R".toList, "/usr/lib/R/bin/R".toList, "/usr/lib/R/bin/Rscript".toList,
        [['4'], ['3'], ['1']], "/e/bin/python".toList, "lib".toList⟩)).length =
      (linesOf "a\n".toList).length + 4 :=
  (claim1_amended "a\n".toList false
    ⟨"/usr/lib/R".toList, "/usr/lib/R/bin/R".toList, "/usr/lib/R/bin/Rscript".toList,
      [['4'], ['3'], ['1']], "/e/bin/python".toList, "lib".toList⟩
    (by decide) (by decide) (by decide)).2.1

/-- C8: the bytes appended by `create_configuration` are a deterministic
function of the descriptor and the flag alone: the file after the append
is the fresh file's contents followed by `config_append_text`, and that
appended text depends only on the descriptor fields `r_home` and
`r_version` together with the flag — so two runs with identical
descriptor and flag against identical fresh files give byte-identical
results. -/
theorem claim8_determinism (r_ssp : Bool) (ctx : RContext) :
    (∀ pre : List Char,
      create_configuration_append pre r_ssp ctx = pre ++ config_append_text r_ssp ctx) ∧
    ∀ ctx' : RContext, ctx'.r_home = ctx.r_home → ctx'.r_version = ctx.r_version →
      config_append_text r_ssp ctx' = config_append_text r_ssp ctx := by
  refine ⟨fun _ => rfl, fun ctx' h1 h2 => ?_⟩
  simp [config_append_text, h1, h2]

/-- C8 witness: two contexts agreeing on `r_home` and `r_version` (but
differing elsewhere) produce the same appended bytes. -/
theorem claim8_witness :
    config_append_text false
      ⟨"/r".toList, "/r/bin/R".toList, "/r/bin/Rscript".toList, [['4'], ['3']],
        "/p".toList, "lib".toList⟩ =
    config_append_text false
      ⟨"/r".toList, "/x".toList, "/y".toList, [['4'], ['3']], "/q".toList, "Lib".toList⟩ :=
  (claim8_determinism false
    ⟨"/r".toList, "/x".toList, "/y".toList, [['4'], ['3']], "/q".toList, "Lib".toList⟩).2
    ⟨"/r".toList, "/r/bin/R".toList, "/r/bin/Rscript".toList, [['4'], ['3']],
      "/p".toList, "lib".toList⟩ rfl rfl

/-- C10: for every version string the locator accepts, storing it as the
dot-split list and rejoining with dots for the `R-version` line
reproduces the reported string verbatim. -/
theorem claim10_version_roundtrip (rv : List Char) (vs : List (List Char))
    (h : get_r_info_version rv = some vs) :
    joinDot vs = rv ∧
    "R-version = ".toList ++ joinDot vs ++ ['\n'] = "R-version = ".toList ++ rv ++ ['\n'] := by
  have hv : vs = splitDot rv := by
    unfold get_r_info_version at h
    by_cases hm : matchesVersion rv = true
    · rw [if_pos hm] at h
      exact (Option.some.injEq _ _ ▸ h).symm
    · rw [if_neg hm] at h
      exact absurd h (by simp)
  subst hv
  exact ⟨joinDot_splitDot rv, by rw [joinDot_splitDot]⟩

/-- C10 witness: the round trip at the accepted version string `4.3.1`. -/
theorem claim10_witness : joinDot [['4'], ['3'], ['1']] = "4.3.1".toList :=
  (claim10_version_roundtrip "4.3.1".toList [['4'], ['3'], ['1']] (by decide)).1

/-- C2 counterexample: with two target directories where the first build
raises, the loop of `main` stops at the failure — the second directory is
never attempted — refuting that a failure on one directory does not
prevent attempting the remaining ones (the exit status is still 1). -/
theorem claim2_counterexample :
    (builder_runs failingCreate ["a".toList, "b".toList]).1 = ["a".toList] ∧
    (builder_runs failingCreate ["a".toList, "b".toList]).1 ≠ ["a".toList, "b".toList] ∧
    main_exit failingCreate ["a".toList, "b".toList] = 1 := by
  decide

/-- C2 amended: directories are processed strictly sequentially, but the
first failure aborts the loop, so the directories after it are not
attempted: the attempted list is the longest successful prefix plus the
first failing directory, and the exit status is 0 exactly when every
directory's build succeeded. -/
theorem claim2_amended (create : List Char → Option BuildError) (dirs : List (List Char)) :
    (main_exit create dirs = 0 ↔ ∀ d ∈ dirs, create d = none) ∧
    (builder_runs create dirs).1 =
      dirs.takeWhile (fun d => (create d).isNone) ++
        (dirs.dropWhile (fun d => (create d).isNone)).take 1 := by
  induction dirs with
  | nil => simp [main_exit, builder_runs]
  | cons d ds ih =>
    obtain ⟨ih1, ih2⟩ := ih
    cases h : create d with
    | some e =>
      constructor
      · constructor
        · intro h0
          exact absurd h0 (by simp [main_exit, builder_runs, h])
        · intro hall
          exact absurd (hall d (by simp)) (by simp [h])
      · simp [builder_runs, h, List.takeWhile_cons, List.dropWhile_cons]
    | none =>
      constructor
      · have hme : main_exit create (d :: ds) = main_exit create ds := by
          simp [main_exit, builder_runs, h]
        rw [hme]
        constructor
        · intro h0 x hx
          rcases List.mem_cons.mp hx with rfl | hx'
          · exact h
          · exact ih1.mp h0 x hx'
        · intro hall
          exact ih1.mpr (fun x hx => hall x (List.mem_cons_of_mem d hx))
      · simp [builder_runs, h, List.takeWhile_cons, List.dropWhile_cons, ih2]

/-- C2 witness: the amended statement evaluated on a single directory
whose build succeeds. -/
theorem claim2_witness : main_exit (fun _ => none) ["a".toList] = 0 :=
  (claim2_amended (fun _ => none) ["a".toList]).1.mpr (fun _ _ => rfl)

/-- C3: the convert path on a target without `pyvenv.cfg` raises
`NotAnEnvironmentError` and returns the filesystem unchanged — the
existence check precedes every other step, so nothing is written before
the raise. -/
theorem claim3_no_cfg_error (rest : List Char → ConvertFS → Option BuildError × ConvertFS)
    (env_dir : List Char) (fs : ConvertFS)
    (h : fs_exists fs (env_dir ++ "/pyvenv.cfg".toList) = false) :
    create_convert rest env_dir fs = (some BuildError.notAnEnvironment, fs) := by
  have h2 : fs_exists fs
      (env_dir ++ ['/', 'p', 'y', 'v', 'e', 'n', 'v', '.', 'c', 'f', 'g']) = false := h
  simp [create_convert, h2]

/-- C3 witness: the convert path on an empty filesystem. -/
theorem claim3_witness :
    create_convert (fun _ fs => (none, fs)) "/env".toList ⟨[]⟩ =
      (some BuildError.notAnEnvironment, ⟨[]⟩) :=
  claim3_no_cfg_error _ _ _ (by decide)

/-- C4: the library-directory step is idempotent and conflict-checked: a
plain directory is accepted unchanged, a symbolic link (to a directory or
to a file) or a regular file raises `LayoutConflictError`, an absent path
is created as a directory, and rerunning after any success succeeds with
no further change. -/
theorem claim4_library_dir (e e' : FsEntry) :
    ensure_r_libdir FsEntry.dir = Except.ok FsEntry.dir ∧
    ensure_r_libdir FsEntry.symlinkToDir = Except.error BuildError.layoutConflict ∧
    ensure_r_libdir FsEntry.symlinkToFile = Except.error BuildError.layoutConflict ∧
    ensure_r_libdir FsEntry.file = Except.error BuildError.layoutConflict ∧
    ensure_r_libdir FsEntry.absent = Except.ok FsEntry.dir ∧
    (ensure_r_libdir e = Except.ok e' → ensure_r_libdir e' = Except.ok e') := by
  refine ⟨rfl, rfl, rfl, rfl, rfl, ?_⟩
  intro h
  cases e <;> simp [ensure_r_libdir, entry_exists, entry_islink, entry_isfile] at h <;>
    subst h <;> rfl

/-- C4 witness: creating the absent directory and rerunning on the result
succeeds without change. -/
theorem claim4_witness : ensure_r_libdir FsEntry.dir = Except.ok FsEntry.dir :=
  (claim4_library_dir FsEntry.absent FsEntry.dir).2.2.2.2.2 rfl

/-- C7: requesting convert together with clear, or upgrade together with
clear, makes `main` raise `ArgumentConflictError` during the
post-parsing checks: no directory is attempted (the attempted list is
empty), so no filesystem mutation of any target occurs. -/
theorem claim7_mutually_exclusive (create : List Char → Option BuildError) (o : CliOptions)
    (hclear : o.clear = true) (hco : o.convert = true ∨ o.upgrade = true) :
    main_run create o = ([], some BuildError.argumentConflict) := by
  unfold main_run main_check_options
  rcases hco with h | h
  · simp [h, hclear]
  · by_cases hc : o.convert <;> simp [h, hc, hclear]

/-- C7 witness: the conflict at a concrete option set requesting convert
and clear together. -/
theorem claim7_witness :
    main_run (fun _ => none) ⟨["a".toList], true, true, false⟩ =
      ([], some BuildError.argumentConflict) :=
  claim7_mutually_exclusive (fun _ => none) ⟨["a".toList], true, true, false⟩ rfl (Or.inl rfl)

theorem takeWhile_append_all (p : Char → Bool) (w t : List Char) (h : ∀ a ∈ w, p a = true) :
    (w ++ t).takeWhile p = w ++ t.takeWhile p := by
  induction w with
  | nil => simp
  | cons a as ih =>
    have ha : p a = true := h a (by simp)
    rw [List.cons_append, List.takeWhile_cons, ha]
    rw [ih (fun x hx => h x (by simp [hx]))]
    simp

theorem dropWhile_append_all (p : Char → Bool) (w t : List Char) (h : ∀ a ∈ w, p a = true) :
    (w ++ t).dropWhile p = t.dropWhile p := by
  induction w with
  | nil => simp
  | cons a as ih =>
    have ha : p a = true := h a (by simp)
    rw [List.cons_append, List.dropWhile_cons, ha]
    simp only [if_true]
    exact ih (fun x hx => h x (by simp [hx]))

theorem dropWhile_head_not (p : Char → Bool) (l : List Char) :
    ∀ c cs, l.dropWhile p = c :: cs → p c = false := by
  induction l with
  | nil => intro c cs h; simp [List.dropWhile] at h
  | cons a as ih =>
    intro c cs h
    rw [List.dropWhile_cons] at h
    by_cases ha : p a
    · exact ih c cs (by simpa [ha] using h)
    · simp [ha] at h
      obtain ⟨h1, _⟩ := h
      subst h1
      simpa using ha

theorem sub_deactivate_go_nil (pw : Bool) : sub_deactivate_go pw [] = [] := by
  simp [sub_deactivate_go]

theorem sub_deactivate_go_cons (pw : Bool) (c : Char) (cs : List Char) :
    sub_deactivate_go pw (c :: cs) =
      if pw = false ∧ deactivateWord <+: (c :: cs) ∧ wordBoundaryAfter (cs.drop 9) = true then
        deactivatePy ++ sub_deactivate_go true (cs.drop 9)
      else
        c :: sub_deactivate_go (isWordChar c) cs := by
  simp [sub_deactivate_go]

theorem wordTokens_nil : wordTokens [] = [] := by
  simp [wordTokens]

theorem wordTokens_cons (c : Char) (cs : List Char) :
    wordTokens (c :: cs) =
      if isWordChar c then
        (c :: cs.takeWhile isWordChar) :: wordTokens (cs.dropWhile isWordChar)
      else
        [c] :: wordTokens cs := by
  simp [wordTokens]

/-- The scan in mid-word state emits the rest of the current word run
verbatim and can match again only after the run ends. -/
theorem sub_deactivate_go_true (s : List Char) :
    sub_deactivate_go true s =
      s.takeWhile isWordChar ++
        (match s.dropWhile isWordChar with
         | [] => []
         | c :: r => c :: sub_deactivate_go false r) := by
  induction s with
  | nil => simp [sub_deactivate_go_nil]
  | cons c cs ih =>
    rw [sub_deactivate_go_cons, if_neg (by simp)]
    by_cases hw : isWordChar c = true
    · rw [hw, ih, List.takeWhile_cons, List.dropWhile_cons, hw]
      simp
    · have hwf : isWordChar c = false := by simpa using hw
      rw [hwf, List.takeWhile_cons, List.dropWhile_cons, hwf]
      simp

/-- A maximal word run equal to the identifier gives a regex match: the
identifier is a prefix here and the following boundary holds. -/
theorem match_of_takeWhile_eq (c : Char) (cs : List Char)
    (h : (c :: cs).takeWhile isWordChar = deactivateWord) :
    deactivateWord <+: (c :: cs) ∧ wordBoundaryAfter (cs.drop 9) = true := by
  have hp : deactivateWord <+: (c :: cs) := by
    rw [← h]; exact List.takeWhile_prefix _
  refine ⟨hp, ?_⟩
  have hsplit : (c :: cs).takeWhile isWordChar ++ (c :: cs).dropWhile isWordChar = c :: cs :=
    List.takeWhile_append_dropWhile _ _
  have h10 : ((c :: cs).takeWhile isWordChar).length = deactivateWord.length := by rw [h]
  have hdrop : cs.drop 9 = (c :: cs).dropWhile isWordChar := by
    have h2 : ((c :: cs).takeWhile isWordChar ++ (c :: cs).dropWhile isWordChar).drop
        ((c :: cs).takeWhile isWordChar).length = (c :: cs).dropWhile isWordChar :=
      List.drop_left _ _
    rw [hsplit, h10] at h2
    exact h2
  rw [hdrop]
  cases hd : (c :: cs).dropWhile isWordChar with
  | nil => rfl
  | cons c0 r' =>
    have hc0 := dropWhile_head_not isWordChar (c :: cs) c0 r' hd
    simp [wordBoundaryAfter, hc0]

/-- Conversely, a regex match means the maximal word run here is exactly
the identifier and the rest of the text follows it. -/
theorem takeWhile_eq_of_match (c : Char) (cs : List Char)
    (hp : deactivateWord <+: (c :: cs)) (hb : wordBoundaryAfter (cs.drop 9) = true) :
    (c :: cs).takeWhile isWordChar = deactivateWord ∧
    (c :: cs).dropWhile isWordChar = cs.drop 9 := by
  obtain ⟨rest, hrest⟩ := hp
  have hAll : ∀ a ∈ deactivateWord, isWordChar a = true := by decide
  have hdrop : cs.drop 9 = rest := by
    have h1 : (deactivateWord ++ rest).drop deactivateWord.length = rest := List.drop_left _ _
    rw [hrest] at h1
    exact h1
  rw [hdrop] at hb
  have hbr : rest.takeWhile isWordChar = [] ∧ rest.dropWhile isWordChar = rest := by
    cases rest with
    | nil => simp
    | cons c0 r' =>
      have hc0 : isWordChar c0 = false := by simpa [wordBoundaryAfter] using hb
      simp [List.takeWhile_cons, List.dropWhile_cons, hc0]
  constructor
  · rw [← hrest, takeWhile_append_all _ _ _ hAll, hbr.1, List.append_nil]
  · rw [← hrest, dropWhile_append_all _ _ _ hAll, hbr.2, hdrop]

theorem renameToken_single (c : Char) : renameToken [c] = [c] := by
  rw [renameToken, if_neg]
  intro h
  have h1 : ([c] : List Char).length = deactivateWord.length := by rw [h]
  have h10 : deactivateWord.length = 10 := rfl
  rw [h10] at h1
  simp at h1

/-- C5: the left-to-right scan of `re.sub(r"\bdeactivate\b",
"deactivate_py", s)` renames exactly the whole-word occurrences of the
identifier — the maximal word runs equal to `deactivate` — and keeps
every other token of the text verbatim; in particular an occurrence of
`deactivate_custom` is a longer word run and is untouched. -/
theorem claim5_whole_word_rename (s : List Char) :
    sub_deactivate s = wholeWordRename s := by
  suffices H : ∀ n (t : List Char), t.length ≤ n →
      sub_deactivate_go false t = wholeWordRename t by
    exact H s.length s le_rfl
  intro n
  induction n with
  | zero =>
    intro t ht
    have ht0 : t = [] := List.length_eq_zero.mp (Nat.le_zero.mp ht)
    subst ht0
    simp [sub_deactivate_go_nil, wholeWordRename, wordTokens_nil]
  | succ n ih =>
    have tail_eq : ∀ r : List Char, r.length ≤ n + 1 → wordBoundaryAfter r = true →
        (match r with
         | [] => ([] : List Char)
         | c0 :: r' => c0 :: sub_deactivate_go false r') =
          ((wordTokens r).map renameToken).flatten := by
      intro r hrlen hrb
      cases r with
      | nil => simp [wordTokens_nil]
      | cons c0 r' =>
        have hc0 : isWordChar c0 = false := by simpa [wordBoundaryAfter] using hrb
        rw [wordTokens_cons, hc0]
        simp only [Bool.false_eq_true, if_false, List.map_cons, List.flatten_cons,
          renameToken_single]
        have hlen : r'.length ≤ n := by
          simp only [List.length_cons] at hrlen
          omega
        rw [ih r' hlen, wholeWordRename]
        simp
    intro t ht
    cases t with
    | nil => simp [sub_deactivate_go_nil, wholeWordRename, wordTokens_nil]
    | cons c cs =>
      have hcs : cs.length ≤ n := by
        simp only [List.length_cons] at ht
        omega
      rw [sub_deactivate_go_cons]
      by_cases hm : deactivateWord <+: (c :: cs) ∧ wordBoundaryAfter (cs.drop 9) = true
      · obtain ⟨hpre, hbd⟩ := hm
        rw [if_pos ⟨rfl, hpre, hbd⟩]
        obtain ⟨htw, hdw⟩ := takeWhile_eq_of_match c cs hpre hbd
        have hwc : isWordChar c = true := by
          obtain ⟨rest, hrest⟩ := hpre
          have hcd : c = 'd' := by
            have h0 := congrArg List.head? hrest
            simp [deactivateWord] at h0
            exact h0.symm
          rw [hcd]
          decide
        have htw2 : c :: cs.takeWhile isWordChar = deactivateWord := by
          rw [← htw, List.takeWhile_cons, hwc]
          simp
        have hdw2 : cs.dropWhile isWordChar = cs.drop 9 := by
          rw [← hdw, List.dropWhile_cons, hwc]
          simp
        rw [wholeWordRename, wordTokens_cons, hwc]
        simp only [if_true, List.map_cons, List.flatten_cons]
        rw [htw2, hdw2]
        have hrt : renameToken deactivateWord = deactivatePy := by
          simp [renameToken]
        rw [hrt]
        congr 1
        rw [sub_deactivate_go_true]
        have hbr2 : (cs.drop 9).takeWhile isWordChar = [] ∧
            (cs.drop 9).dropWhile isWordChar = cs.drop 9 := by
          cases hr : cs.drop 9 with
          | nil => simp
          | cons c0 r' =>
            have hc0 : isWordChar c0 = false := by
              rw [hr] at hbd
              simpa [wordBoundaryAfter] using hbd
            simp [List.takeWhile_cons, List.dropWhile_cons, hc0]
        rw [hbr2.1, hbr2.2, List.nil_append]
        exact tail_eq (cs.drop 9) (by rw [List.length_drop]; omega) hbd
      · rw [if_neg (by rintro ⟨h1, h2, h3⟩; exact hm ⟨h2, h3⟩)]
        by_cases hwc : isWordChar c = true
        · rw [hwc, sub_deactivate_go_true, wholeWordRename, wordTokens_cons, hwc]
          simp only [if_true, List.map_cons, List.flatten_cons]
          have hne : renameToken (c :: cs.takeWhile isWordChar) = c :: cs.takeWhile isWordChar := by
            rw [renameToken, if_neg]
            intro heq
            have htw3 : (c :: cs).takeWhile isWordChar = deactivateWord := by
              rw [List.takeWhile_cons, hwc]
              simpa using heq
            exact hm (match_of_takeWhile_eq c cs htw3)
          have hrb : wordBoundaryAfter (cs.dropWhile isWordChar) = true := by
            cases hr : cs.dropWhile isWordChar with
            | nil => rfl
            | cons c0 r' =>
              have hc0 := dropWhile_head_not isWordChar cs c0 r' hr
              simp [wordBoundaryAfter, hc0]
          have hdlen : (cs.dropWhile isWordChar).length ≤ n + 1 := by
            have h1 := (List.dropWhile_suffix (l := cs) isWordChar).length_le
            omega
          rw [hne, List.cons_append, tail_eq (cs.dropWhile isWordChar) hdlen hrb]
        · have hwf : isWordChar c = false := by simpa using hwc
          rw [hwf, wholeWordRename, wordTokens_cons, hwf]
          simp only [Bool.false_eq_true, if_false, List.map_cons, List.flatten_cons,
            renameToken_single]
          rw [ih cs hcs, wholeWordRename]
          simp

/-- The whole-word rename never shortens the text: every match consumes
10 characters and emits 13, every other step copies one character. -/
theorem sub_deactivate_go_length (s : List Char) :
    ∀ pw, s.length ≤ (sub_deactivate_go pw s).length := by
  suffices H : ∀ n (t : List Char), t.length ≤ n → ∀ pw,
      t.length ≤ (sub_deactivate_go pw t).length by
    intro pw
    exact H s.length s le_rfl pw
  intro n
  induction n with
  | zero =>
    intro t ht pw
    have ht0 : t = [] := List.length_eq_zero.mp (Nat.le_zero.mp ht)
    subst ht0
    simp [sub_deactivate_go_nil]
  | succ n ih =>
    intro t ht pw
    cases t with
    | nil => simp [sub_deactivate_go_nil]
    | cons c cs =>
      rw [sub_deactivate_go_cons]
      by_cases hm : pw = false ∧ deactivateWord <+: (c :: cs) ∧
          wordBoundaryAfter (cs.drop 9) = true
      · rw [if_pos hm]
        have hpl : deactivateWord.length ≤ (c :: cs).length := hm.2.1.length_le
        have h10 : deactivateWord.length = 10 := rfl
        have h13 : deactivatePy.length = 13 := rfl
        have hdl : (cs.drop 9).length = cs.length - 9 := List.length_drop _ _
        have hih := ih (cs.drop 9) (by simp only [List.length_cons] at ht; omega) true
        rw [hdl] at hih
        rw [List.length_append, h13, List.length_cons]
        rw [h10, List.length_cons] at hpl
        omega
      · rw [if_neg hm]
        have hih := ih cs (by simp only [List.length_cons] at ht; omega) (isWordChar c)
        simp only [List.length_cons]
        omega

/-- A factor of an append sits in the left part, sits in the right part,
or straddles the border with a nonempty piece on each side. -/
theorem infix_append_split {T A B : List Char} (h : T <:+: A ++ B) :
    T <:+: A ∨ T <:+: B ∨
      ∃ t₁ t₂, t₁ ≠ [] ∧ t₂ ≠ [] ∧ T = t₁ ++ t₂ ∧ t₁ <:+ A ∧ t₂ <+: B := by
  obtain ⟨x, y, hxy⟩ := h
  by_cases h1 : x.length + T.length ≤ A.length
  · left
    have hxle : x.length ≤ A.length := by omega
    have hA : (x ++ (T ++ y)).take A.length = A := by
      rw [← List.append_assoc, hxy]
      exact List.take_left A B
    rw [List.take_append_eq_append_take, List.take_of_length_le hxle,
      List.take_append_eq_append_take, List.take_of_length_le (by omega)] at hA
    exact ⟨x, y.take (A.length - x.length - T.length), by rw [List.append_assoc, hA]⟩
  · by_cases h2 : A.length ≤ x.length
    · right; left
      have hB : (x ++ (T ++ y)).drop A.length = B := by
        rw [← List.append_assoc, hxy]
        exact List.drop_left A B
      rw [List.drop_append_eq_append_drop] at hB
      have hz : A.length - x.length = 0 := by omega
      rw [hz, List.drop_zero] at hB
      exact ⟨x.drop A.length, y, by rw [List.append_assoc, hB]⟩
    · right; right
      have hk1 : x.length < A.length := by omega
      have hk2 : A.length < x.length + T.length := by omega
      refine ⟨T.take (A.length - x.length), T.drop (A.length - x.length), ?_, ?_, ?_, ?_, ?_⟩
      · intro h0
        have h3 := congrArg List.length h0
        simp only [List.length_take, List.length_nil] at h3
        omega
      · intro h0
        have h3 := congrArg List.length h0
        simp only [List.length_drop, List.length_nil] at h3
        omega
      · exact (List.take_append_drop _ _).symm
      · have hA : (x ++ (T ++ y)).take A.length = A := by
          rw [← List.append_assoc, hxy]
          exact List.take_left A B
        rw [List.take_append_eq_append_take, List.take_of_length_le (by omega),
          List.take_append_eq_append_take] at hA
        have hz : A.length - x.length - T.length = 0 := by omega
        rw [hz, List.take_zero, List.append_nil] at hA
        exact ⟨x, hA⟩
      · have hB : (x ++ (T ++ y)).drop A.length = B := by
          rw [← List.append_assoc, hxy]
          exact List.drop_left A B
        rw [List.drop_append_eq_append_drop, List.drop_eq_nil_of_le (by omega),
          List.nil_append, List.drop_append_eq_append_drop] at hB
        have hz : A.length - x.length - T.length = 0 := by omega
        rw [hz, List.drop_zero] at hB
        exact ⟨y, hB⟩

theorem joinWith_nil (sep : List Char) : joinWith sep [] = [] := rfl

theorem joinWith_single (sep p : List Char) : joinWith sep [p] = p := rfl

theorem joinWith_cons₂ (sep p q : List Char) (qs : List (List Char)) :
    joinWith sep (p :: q :: qs) = p ++ sep ++ joinWith sep (q :: qs) := rfl

theorem joinWith_cons_head (sep : List Char) (c : Char) (p : List Char)
    (rest : List (List Char)) :
    joinWith sep ((c :: p) :: rest) = c :: joinWith sep (p :: rest) := by
  cases rest with
  | nil => rfl
  | cons r rs => simp [joinWith]

theorem pyReplace_nil (pat val : List Char) : pyReplace pat val [] = [] := by
  simp [pyReplace]

theorem pyReplace_cons (pat val : List Char) (c : Char) (cs : List Char) :
    pyReplace pat val (c :: cs) =
      if pat <+: (c :: cs) then val ++ pyReplace pat val (cs.drop (pat.length - 1))
      else c :: pyReplace pat val cs := by
  simp [pyReplace]

/-- Shape of a `str.replace` pass: the output is the untouched segments
of the input joined by copies of the replacement value; the segments are
factors of the input, the first one is a prefix, and none contains an
occurrence of the pattern. -/
theorem pyReplace_shape (pat val : List Char) (hpat : pat ≠ []) (s : List Char) :
    ∃ p₀ ps, p₀ <+: s ∧ (∀ p ∈ p₀ :: ps, p <:+: s) ∧ (∀ p ∈ p₀ :: ps, ¬ pat <:+: p) ∧
      pyReplace pat val s = joinWith val (p₀ :: ps) := by
  suffices H : ∀ n (t : List Char), t.length ≤ n →
      ∃ p₀ ps, p₀ <+: t ∧ (∀ p ∈ p₀ :: ps, p <:+: t) ∧
        (∀ p ∈ p₀ :: ps, ¬ pat <:+: p) ∧ pyReplace pat val t = joinWith val (p₀ :: ps) by
    exact H s.length s le_rfl
  intro n
  induction n with
  | zero =>
    intro t ht
    have ht0 : t = [] := List.length_eq_zero.mp (Nat.le_zero.mp ht)
    subst ht0
    refine ⟨[], [], List.nil_prefix, ?_, ?_, by rw [pyReplace_nil, joinWith_single]⟩
    · intro p hp
      simp only [List.mem_singleton] at hp
      subst hp
      exact List.nil_infix
    · intro p hp
      simp only [List.mem_singleton] at hp
      subst hp
      intro hc
      exact hpat (List.eq_nil_of_infix_nil hc)
  | succ n ih =>
    intro t ht
    cases t with
    | nil =>
      refine ⟨[], [], List.nil_prefix, ?_, ?_, by rw [pyReplace_nil, joinWith_single]⟩
      · intro p hp
        simp only [List.mem_singleton] at hp
        subst hp
        exact List.nil_infix
      · intro p hp
        simp only [List.mem_singleton] at hp
        subst hp
        intro hc
        exact hpat (List.eq_nil_of_infix_nil hc)
    | cons c cs =>
      by_cases hm : pat <+: (c :: cs)
      · obtain ⟨p₀', ps', h1, h2, h3, h4⟩ :=
          ih (cs.drop (pat.length - 1)) (by
            simp only [List.length_cons, List.length_drop] at ht ⊢
            omega)
        have hsub : cs.drop (pat.length - 1) <:+ (c :: cs) :=
          (List.drop_suffix _ cs).trans (List.suffix_cons c cs)
        refine ⟨[], p₀' :: ps', List.nil_prefix, ?_, ?_, ?_⟩
        · intro p hp
          rcases List.mem_cons.mp hp with rfl | hp'
          · exact List.nil_infix
          · exact (h2 p hp').trans hsub.isInfix
        · intro p hp
          rcases List.mem_cons.mp hp with rfl | hp'
          · intro hc
            exact hpat (List.eq_nil_of_infix_nil hc)
          · exact h3 p hp'
        · rw [pyReplace_cons, if_pos hm, h4, joinWith_cons₂]
          simp
      · obtain ⟨p₀', ps', h1, h2, h3, h4⟩ :=
          ih cs (by simp only [List.length_cons] at ht; omega)
        have hpfx : c :: p₀' <+: c :: cs := List.cons_prefix_cons.mpr ⟨rfl, h1⟩
        refine ⟨c :: p₀', ps', hpfx, ?_, ?_, ?_⟩
        · intro p hp
          rcases List.mem_cons.mp hp with rfl | hp'
          · exact hpfx.isInfix
          · exact (h2 p (List.mem_cons_of_mem _ hp')).trans (List.suffix_cons c cs).isInfix
        · intro p hp
          rcases List.mem_cons.mp hp with rfl | hp'
          · intro hc
            obtain ⟨u, v, huv⟩ := hc
            cases u with
            | nil =>
              have hpp : pat <+: (c :: p₀') := ⟨v, by simpa using huv⟩
              exact hm (hpp.trans hpfx)
            | cons a u' =>
              have huv2 : a :: (u' ++ pat ++ v) = c :: p₀' := by simpa using huv
              have htl : u' ++ pat ++ v = p₀' := (List.cons.injEq _ _ _ _ ▸ huv2).2
              exact h3 p₀' (List.mem_cons_self _ _) ⟨u', v, htl⟩
          · exact h3 p (List.mem_cons_of_mem _ hp')
        · rw [pyReplace_cons, if_neg hm, h4, joinWith_cons_head]

/-- A factor that begins and ends with an underscore cannot straddle a
separator that contains no underscore and is not itself a fragment of the
factor: it lies inside one of the joined segments. -/
theorem infix_joinWith {T val : List Char} (hh : T.head? = some '_')
    (hl : T.getLast? = some '_') (hv : '_' ∉ val) (hvT : ¬ val <:+: T) :
    ∀ ps : List (List Char), T <:+: joinWith val ps → ∃ p ∈ ps, T <:+: p := by
  intro ps
  induction ps with
  | nil =>
    intro h
    rw [joinWith_nil] at h
    have h0 : T = [] := List.eq_nil_of_infix_nil h
    rw [h0] at hh
    simp at hh
  | cons p ps ih =>
    cases ps with
    | nil =>
      intro h
      rw [joinWith_single] at h
      exact ⟨p, List.mem_singleton_self _, h⟩
    | cons q qs =>
      intro h
      rw [joinWith_cons₂, List.append_assoc] at h
      rcases infix_append_split h with hA | hB | ⟨t₁, t₂, ht₁, ht₂, hT12, hs₁, hp₂⟩
      · exact ⟨p, List.mem_cons_self _ _, hA⟩
      · rcases infix_append_split hB with hv2 | hr | ⟨u₁, u₂, hu₁, hu₂, hU, hs', hp'⟩
        · exfalso
          have hTm : '_' ∈ T := List.mem_of_mem_head? (by rw [hh]; rfl)
          exact hv (hv2.subset hTm)
        · obtain ⟨p', hp', hTp⟩ := ih hr
          exact ⟨p', List.mem_cons_of_mem _ hp', hTp⟩
        · exfalso
          cases u₁ with
          | nil => exact hu₁ rfl
          | cons a u' =>
            have hha : a = '_' := by
              rw [hU] at hh
              simpa using hh
            have hmem : a ∈ val := hs'.subset (List.mem_cons_self _ _)
            rw [hha] at hmem
            exact hv hmem
      · exfalso
        by_cases hlen : t₂.length ≤ val.length
        · have hpv : t₂ <+: val :=
            List.prefix_of_prefix_length_le hp₂ (List.prefix_append val _) hlen
          have hlast : t₂.getLast? = some '_' := by
            rw [hT12, List.getLast?_append_of_ne_nil t₁ ht₂] at hl
            exact hl
          have hmem : '_' ∈ t₂ := List.mem_of_mem_getLast? (by rw [hlast]; rfl)
          exact hv (hpv.subset hmem)
        · have hvp : val <+: t₂ :=
            List.prefix_of_prefix_length_le (List.prefix_append val _) hp₂ (by omega)
          apply hvT
          have h1 : t₂ <:+ T := by
            rw [hT12]
            exact List.suffix_append t₁ t₂
          exact hvp.isInfix.trans h1.isInfix

/-- A `str.replace` pass on text without an occurrence of the pattern is
the identity. -/
theorem pyReplace_id_of_absent (pat val : List Char) (s : List Char) (h : ¬ pat <:+: s) :
    pyReplace pat val s = s := by
  induction s with
  | nil => exact pyReplace_nil pat val
  | cons c cs ih =>
    rw [pyReplace_cons, if_neg (fun hp => h hp.isInfix)]
    rw [ih (fun hc => h (hc.trans (List.suffix_cons c cs).isInfix))]

/-- After a `str.replace` pass, no occurrence of the replaced token
itself is left, provided the value has no underscore and is not a
fragment of the token. -/
theorem pyReplace_no_self {pat val : List Char} (s : List Char)
    (hh : pat.head? = some '_') (hl : pat.getLast? = some '_')
    (hv : '_' ∉ val) (hvp : ¬ val <:+: pat) : ¬ pat <:+: pyReplace pat val s := by
  intro hc
  have hpat : pat ≠ [] := by
    intro h0
    rw [h0] at hh
    simp at hh
  obtain ⟨p₀, ps, _, _, h3, h4⟩ := pyReplace_shape pat val hpat s
  rw [h4] at hc
  obtain ⟨p, hp, hTp⟩ := infix_joinWith hh hl hv hvp (p₀ :: ps) hc
  exact h3 p hp hTp

/-- A `str.replace` pass cannot manufacture an occurrence of a token that
was absent, provided the value has no underscore and is not a fragment of
that token. -/
theorem pyReplace_no_create {pat val T : List Char} (s : List Char) (hpat : pat ≠ [])
    (hh : T.head? = some '_') (hl : T.getLast? = some '_')
    (hv : '_' ∉ val) (hvT : ¬ val <:+: T) (hs : ¬ T <:+: s) :
    ¬ T <:+: pyReplace pat val s := by
  intro hc
  obtain ⟨p₀, ps, _, h2, _, h4⟩ := pyReplace_shape pat val hpat s
  rw [h4] at hc
  obtain ⟨p, hp, hTp⟩ := infix_joinWith hh hl hv hvT (p₀ :: ps) hc
  exact hs (hTp.trans (h2 p hp))

/-- C6: the resolver replaces every occurrence of each of the four
enumerated tokens — none survives in the output — while a text containing
no enumerated token (in particular one whose placeholder tokens all lie
outside the enumerated set) passes through unchanged. The substitution
values are assumed sane (`goodValue`), as the real resolved values are:
an adversarial value could itself contain or complete a token. -/
theorem claim6_placeholder_resolution (r_ssp : Bool) (ctx : RContext)
    (hrh : goodValue ctx.r_home) (hpy : goodValue ctx.python_exe)
    (hlib : goodValue ctx.lib_name) :
    (∀ text, ∀ t ∈ venvrTokens, ¬ t <:+: replace_variables r_ssp ctx text) ∧
    (∀ text, (∀ t ∈ venvrTokens, ¬ t <:+: text) → replace_variables r_ssp ctx text = text) := by
  have hm_sp : tok_system_packages ∈ venvrTokens := by simp [venvrTokens]
  have hm_rh : tok_r_home ∈ venvrTokens := by simp [venvrTokens]
  have hm_py : tok_py_exec ∈ venvrTokens := by simp [venvrTokens]
  have hm_lib : tok_lib_name ∈ venvrTokens := by simp [venvrTokens]
  have h_sp_h : tok_system_packages.head? = some '_' := by decide
  have h_sp_l : tok_system_packages.getLast? = some '_' := by decide
  have h_rh_h : tok_r_home.head? = some '_' := by decide
  have h_rh_l : tok_r_home.getLast? = some '_' := by decide
  have h_py_h : tok_py_exec.head? = some '_' := by decide
  have h_py_l : tok_py_exec.getLast? = some '_' := by decide
  have h_lib_h : tok_lib_name.head? = some '_' := by decide
  have h_lib_l : tok_lib_name.getLast? = some '_' := by decide
  have h_rh_ne : tok_r_home ≠ [] := by decide
  have h_py_ne : tok_py_exec ≠ [] := by decide
  have h_lib_ne : tok_lib_name ≠ [] := by decide
  have h_sp_m : venvrMarker <+: tok_system_packages := by decide
  have h_rh_m : venvrMarker <+: tok_r_home := by decide
  have h_py_m : venvrMarker <+: tok_py_exec := by decide
  have h_lib_m : venvrMarker <+: tok_lib_name := by decide
  have hincl : goodValue (incl_line_value r_ssp) := by
    cases r_ssp
    · exact (by decide : goodValue "false".toList)
    · exact (by decide : goodValue "true".toList)
  constructor
  · intro text t ht
    by_cases hg : venvrMarker <:+: text
    · simp only [replace_variables]
      rw [if_pos hg]
      set A := pyReplace tok_system_packages (incl_line_value r_ssp) text with hAdef
      set B := pyReplace tok_r_home ctx.r_home A with hBdef
      set C := pyReplace tok_py_exec ctx.python_exe B with hCdef
      have n1 : ¬ tok_system_packages <:+: A :=
        pyReplace_no_self text h_sp_h h_sp_l hincl.1 (hincl.2 _ hm_sp)
      have n2sp : ¬ tok_system_packages <:+: B :=
        pyReplace_no_create A h_rh_ne h_sp_h h_sp_l hrh.1 (hrh.2 _ hm_sp) n1
      have n2rh : ¬ tok_r_home <:+: B :=
        pyReplace_no_self A h_rh_h h_rh_l hrh.1 (hrh.2 _ hm_rh)
      have n3sp : ¬ tok_system_packages <:+: C :=
        pyReplace_no_create B h_py_ne h_sp_h h_sp_l hpy.1 (hpy.2 _ hm_sp) n2sp
      have n3rh : ¬ tok_r_home <:+: C :=
        pyReplace_no_create B h_py_ne h_rh_h h_rh_l hpy.1 (hpy.2 _ hm_rh) n2rh
      have n3py : ¬ tok_py_exec <:+: C :=
        pyReplace_no_self B h_py_h h_py_l hpy.1 (hpy.2 _ hm_py)
      have n4sp : ¬ tok_system_packages <:+: pyReplace tok_lib_name ctx.lib_name C :=
        pyReplace_no_create C h_lib_ne h_sp_h h_sp_l hlib.1 (hlib.2 _ hm_sp) n3sp
      have n4rh : ¬ tok_r_home <:+: pyReplace tok_lib_name ctx.lib_name C :=
        pyReplace_no_create C h_lib_ne h_rh_h h_rh_l hlib.1 (hlib.2 _ hm_rh) n3rh
      have n4py : ¬ tok_py_exec <:+: pyReplace tok_lib_name ctx.lib_name C :=
        pyReplace_no_create C h_lib_ne h_py_h h_py_l hlib.1 (hlib.2 _ hm_py) n3py
      have n4lib : ¬ tok_lib_name <:+: pyReplace tok_lib_name ctx.lib_name C :=
        pyReplace_no_self C h_lib_h h_lib_l hlib.1 (hlib.2 _ hm_lib)
      simp only [venvrTokens, List.mem_cons, List.not_mem_nil, or_false] at ht
      rcases ht with rfl | rfl | rfl | rfl
      · exact n4sp
      · exact n4rh
      · exact n4py
      · exact n4lib
    · simp only [replace_variables]
      rw [if_neg hg]
      intro hinf
      simp only [venvrTokens, List.mem_cons, List.not_mem_nil, or_false] at ht
      rcases ht with rfl | rfl | rfl | rfl
      · exact hg (h_sp_m.isInfix.trans hinf)
      · exact hg (h_rh_m.isInfix.trans hinf)
      · exact hg (h_py_m.isInfix.trans hinf)
      · exact hg (h_lib_m.isInfix.trans hinf)
  · intro text hfree
    by_cases hg : venvrMarker <:+: text
    · simp only [replace_variables]
      rw [if_pos hg]
      rw [pyReplace_id_of_absent tok_system_packages (incl_line_value r_ssp) text
        (hfree _ hm_sp)]
      rw [pyReplace_id_of_absent tok_r_home ctx.r_home text (hfree _ hm_rh)]
      rw [pyReplace_id_of_absent tok_py_exec ctx.python_exe text (hfree _ hm_py)]
      rw [pyReplace_id_of_absent tok_lib_name ctx.lib_name text (hfree _ hm_lib)]
    · simp only [replace_variables]
      rw [if_neg hg]

/-- C6 witness: the resolved output of a concrete template contains no
occurrence of the install-root token. -/
theorem claim6_witness :
    ¬ tok_r_home <:+: replace_variables false
      ⟨"/opt/R".toList, "/opt/R/bin/R".toList, "/opt/R/bin/Rscript".toList,
        [['4'], ['3'], ['1']], "/venv/bin/python3".toList, "lib".toList⟩
      "export R_HOME=__VENVR_R_HOME__/lib".toList :=
  (claim6_placeholder_resolution false
    ⟨"/opt/R".toList, "/opt/R/bin/R".toList, "/opt/R/bin/Rscript".toList,
      [['4'], ['3'], ['1']], "/venv/bin/python3".toList, "lib".toList⟩
    (by decide) (by decide) (by decide)).1
    "export R_HOME=__VENVR_R_HOME__/lib".toList tok_r_home (by simp [venvrTokens])

/-- C9: although `post_setup` rewrites the activation script in place via
`seek(0)` without truncation, the written text (renamed old script plus
resolved template) is at least as long as the old contents, so the
resulting file is exactly the renamed text followed by the template, with
no residual bytes of the old content surviving. -/
theorem claim9_rewrite_in_place (old r_script : List Char) :
    activate_rewrite old r_script = sub_deactivate old ++ r_script ∧
    old.length ≤ (sub_deactivate old ++ r_script).length := by
  have h := sub_deactivate_go_length old false
  have hle : old.length ≤ (sub_deactivate old ++ r_script).length := by
    rw [List.length_append]
    exact le_trans h (Nat.le_add_right _ _)
  constructor
  · show sub_deactivate old ++ r_script ++ old.drop (sub_deactivate old ++ r_script).length =
      sub_deactivate old ++ r_script
    rw [List.drop_eq_nil_of_le hle]
    simp
  · exact hle

end Venvr
